import Mathlib

/-!
# Verification of the metrics engine in `src/main.js`

A shallow embedding of the difficulty-metrics engine of the viewer
application (`src/main.js`):

* JavaScript `BigInt` values are modeled as `ℤ` (arbitrary precision in both
  worlds); all `BigInt` divisions truncate toward zero, which is `Int.tdiv`.
* `decimal.js` `Decimal` values are modeled as exact rationals `ℚ`.  The
  configured 40-significant-digit precision is not modeled: every property
  proved below (signs of quotients, exact sums and averages of values the
  claims mention) is either exact at that precision or preserved by the
  rounding mode, and the spec itself describes the arithmetic as exact.
* Dynamic JS values reaching `hexToBigInt` are modeled by the inductive
  `JSVal`; JS truthiness is modeled where the code branches on it.
* The asynchronous RPC layer is modeled by oracles: a `RpcResponses`
  bundle gives, per block number, the decoded JSON results of the three
  per-block calls (`none` models a missing/failed/`null` entry of the
  id → result map), and POST-level success of `sendBatchWithLimit` slices
  is an oracle indexed by the POST sequence number.
-/

namespace MainJs

/-! ## JS values and `hexToBigInt` (src/main.js:172-184) -/

/-- A JavaScript value as it can reach `hexToBigInt`: `null`, `undefined`,
a string, an integral `Number`, a non-integral `Number` (on which the JS
`BigInt` conversion throws), or a boolean. -/
inductive JSVal where
  | vNull
  | vUndefined
  | vStr (s : String)
  | vInt (n : ℤ)
  | vNonIntNum
  | vBool (b : Bool)
  deriving DecidableEq

/-- Is `c` one of `0-9a-fA-F`?  (Digits accepted by `BigInt("0x…")`.) -/
def isHexDigitCh (c : Char) : Bool :=
  (48 ≤ c.toNat && c.toNat ≤ 57) ||
    (97 ≤ c.toNat && c.toNat ≤ 102) ||
    (65 ≤ c.toNat && c.toNat ≤ 70)

/-- Numeric value of a hex digit character (0 for non-digits; only applied
to characters that pass `isHexDigitCh`). -/
def hexDigitVal (c : Char) : ℕ :=
  if 48 ≤ c.toNat ∧ c.toNat ≤ 57 then c.toNat - 48
  else if 97 ≤ c.toNat ∧ c.toNat ≤ 102 then c.toNat - 87
  else if 65 ≤ c.toNat ∧ c.toNat ≤ 70 then c.toNat - 55
  else 0

/-- Value of a list of hex digits, most significant first. -/
def hexVal (cs : List Char) : ℕ :=
  cs.foldl (fun acc c => acc * 16 + hexDigitVal c) 0

/-- JS `BigInt(str)` for a string whose characters start with `'0' 'x'`
(every string `hexToBigInt` passes to `BigInt` has this shape by
construction).  `none` models a thrown `SyntaxError`.  The
surrounding-whitespace tolerance of the JS string-to-BigInt conversion is
not modeled; no RPC result carries such whitespace. -/
def parseHex0x (cs : List Char) : Option ℤ :=
  match cs with
  | c0 :: c1 :: body =>
      if c0 = '0' ∧ c1 = 'x' ∧ body ≠ [] ∧ body.all isHexDigitCh then
        some (hexVal body)
      else none
  | _ => none

/-- Model of `const clean = hex.startsWith('0x') ? hex : '0x' + hex` on the
character list of the string. -/
def cleanedChars (s : String) : List Char :=
  if s.data.take 2 = ['0', 'x'] then s.data else '0' :: 'x' :: s.data

/-- Embedding of `hexToBigInt` (src/main.js:172-184).  `!hex` short-circuits `null`,
`undefined`, `0`, `false` and the empty string to `0n`; a string is
`0x`-prefixed and handed to `BigInt`, whose parse failure is caught and
becomes `0n`; `BigInt` of an integral number or `true` converts exactly,
and of a non-integral number throws (caught, `0n`). -/
def hexToBigInt : JSVal → ℤ
  | .vNull => 0
  | .vUndefined => 0
  | .vStr s =>
      if s.data = [] then 0
      else
        match parseHex0x (cleanedChars s) with
        | some n => n
        | none => 0
  | .vInt n => n
  | .vNonIntNum => 0
  | .vBool b => if b then 1 else 0

/-! ## Decimal model -/

/-- Values of `decimal.js`, modeled as exact rationals (see the file header). -/
abbrev Decimal := ℚ

/-- Embedding of `toDecimalFromBigInt` (src/main.js:189): `new Decimal(bi.toString())`
is exact. -/
def toDecimalFromBigInt (bi : ℤ) : Decimal := (bi : ℚ)

/-! ## `logBigInt` (src/main.js:191-214) -/

/-- The constant 2^64, the fixed-point scale (`SCALE_2E64` / `SCALE_BI`,
src/main.js:194,219). -/
def SCALE_2E64 : ℤ := 2 ^ 64

/-- The bit-counting loop of `logBigInt`:
`let c = 0n; let temp = x; while (temp > 1n) { temp = temp >> 1n; c++; }`. -/
def countShifts (n : ℕ) : ℕ :=
  if n ≤ 1 then 0 else countShifts (n / 2) + 1
decreasing_by exact Nat.div_lt_self (by omega) (by omega)

/-- Embedding of `logBigInt` (src/main.js:195-214): fixed-point `log2(x) * 2^64` over
BigInt, `0` for `x <= 0n`. -/
def logBigInt (x : ℤ) : ℤ :=
  if x ≤ 0 then 0
  else
    let c := countShifts x.toNat
    let twoPowC : ℤ := 2 ^ c
    let remainder := x - twoPowC
    let m := Int.tdiv (remainder * SCALE_2E64) twoPowC
    (c : ℤ) * SCALE_2E64 + m

/-! ## `computeExactDeltaK` and the approximate fallback
(src/main.js:216-280) -/

/-- The `OneOverAlpha` protocol constant (src/main.js:218). -/
def ONE_OVER_ALPHA_BI : ℤ := 1000

/-- Result record of `computeExactDeltaK`. -/
structure ExactResult where
  ratio : Decimal
  deltaK : Decimal
  kQuaiIncrease : Bool
  deriving DecidableEq

/-- Embedding of `computeExactDeltaK` (src/main.js:222-262).  The guard
`!xbStar || !minerDiff || minerDiff <= 0n` is `xbStar = 0 ∨ minerDiff = 0
∨ minerDiff ≤ 0` on BigInt.  Nothing in the body after decoding can throw,
so the catch-all is unreachable and not modeled. -/
def computeExactDeltaK (bestDiffNormHex minerDiffHex : JSVal) : ExactResult :=
  let xbStar := hexToBigInt bestDiffNormHex
  let minerDiff := hexToBigInt minerDiffHex
  if xbStar = 0 ∨ minerDiff = 0 ∨ minerDiff ≤ 0 then
    { ratio := 1, deltaK := 0, kQuaiIncrease := false }
  else
    let d1 := SCALE_2E64 * minerDiff
    let d2 := logBigInt minerDiff
    let xbStarTimesD2 := xbStar * d2
    let num := xbStarTimesD2 - d1
    let kQuaiIncrease := decide (0 < num)
    let denum := d1 * ONE_OVER_ALPHA_BI
    let deltaKDec : Decimal := (num : ℚ) / (denum : ℚ)
    let ratioDec : Decimal := (xbStarTimesD2 : ℚ) / (d1 : ℚ)
    { ratio := ratioDec, deltaK := deltaKDec, kQuaiIncrease := kQuaiIncrease }

/-- Result record of the approximate fallback. -/
structure ApproxResult where
  ratio : Decimal
  deltaK : Decimal
  deriving DecidableEq

/-- Embedding of `computeRatioAndDeltaKFromNormHex` (src/main.js:265-280), the legacy
approximate formula over normalized values; BigInt divisions truncate. -/
def computeRatioAndDeltaKFromNormHex (bestHex minerHex : JSVal) : ApproxResult :=
  let best := hexToBigInt bestHex
  let miner := hexToBigInt minerHex
  if best = 0 ∨ miner = 0 then { ratio := 1, deltaK := 0 }
  else
    let ratioScaled := Int.tdiv (best * SCALE_2E64) miner
    let deltaScaled := ratioScaled - SCALE_2E64
    let deltaKScaled := Int.tdiv deltaScaled ONE_OVER_ALPHA_BI
    { ratio := (ratioScaled : ℚ) / (SCALE_2E64 : ℚ),
      deltaK := (deltaKScaled : ℚ) / (SCALE_2E64 : ℚ) }

/-! ## `avgDec` (src/main.js:297) -/

/-- Embedding of `avgDec` (src/main.js:297).  At both call sites the array entries are
`Decimal` or `null` (`none`), a `null` contributing `Decimal(0)`; the
empty array yields `Decimal(0)`.  (The bigint/number coercion arms of the
source are unreachable from the call sites and not modeled.) -/
def avgDec (arr : List (Option Decimal)) : Decimal :=
  if arr = [] then 0
  else (arr.foldl (fun sum v => sum + v.getD 0) 0) / (arr.length : ℚ)

/-! ## Claim C1: `logBigInt` fixed-point correctness -/

theorem countShifts_eq_log2 (n : ℕ) : countShifts n = Nat.log2 n := by
  induction n using Nat.strong_induction_on with
  | _ n ih =>
    rw [countShifts, Nat.log2]
    by_cases h : n ≤ 1
    · simp [h, show ¬ n ≥ 2 by omega]
    · have h2 : n ≥ 2 := by omega
      simp only [if_neg h, if_pos h2]
      rw [ih (n / 2) (Nat.div_lt_self (by omega) (by omega))]

/-- Claim C1.  `logBigInt` returns `0` for `x ≤ 0`; for `x > 0` it returns
exactly `c * 2^64 + m` where `c` is characterized by
`2^c ≤ x < 2^(c+1)` (that is, `c = bitLength x - 1`) and
`m = ⌊(x - 2^c) * 2^64 / 2^c⌋` with `0 ≤ m < 2^64` — all computed with
integer arithmetic only. -/
theorem logBigInt_correct (x : ℤ) :
    (x ≤ 0 → logBigInt x = 0) ∧
    (0 < x →
      ∃ c m : ℕ,
        (2 : ℤ) ^ c ≤ x ∧ x < 2 ^ (c + 1) ∧
        m = (x.toNat - 2 ^ c) * 2 ^ 64 / 2 ^ c ∧ m < 2 ^ 64 ∧
        logBigInt x = (c : ℤ) * 2 ^ 64 + (m : ℤ)) := by
  constructor
  · intro hx
    simp [logBigInt, hx]
  · intro hx
    have hxt : x.toNat ≠ 0 := by omega
    have hx' : (x.toNat : ℤ) = x := Int.toNat_of_nonneg (le_of_lt hx)
    set c := Nat.log2 x.toNat with hc
    have hle : 2 ^ c ≤ x.toNat := Nat.log2_self_le hxt
    have hlt : x.toNat < 2 ^ (c + 1) := Nat.lt_log2_self
    refine ⟨c, (x.toNat - 2 ^ c) * 2 ^ 64 / 2 ^ c, ?_, ?_, rfl, ?_, ?_⟩
    · calc ((2 : ℤ) ^ c) = ((2 ^ c : ℕ) : ℤ) := by push_cast; ring
        _ ≤ (x.toNat : ℤ) := by exact_mod_cast hle
        _ = x := hx'
    · calc x = (x.toNat : ℤ) := hx'.symm
        _ < ((2 ^ (c + 1) : ℕ) : ℤ) := by exact_mod_cast hlt
        _ = 2 ^ (c + 1) := by push_cast; ring
    · have hrem : x.toNat - 2 ^ c < 2 ^ c := by
        have : 2 ^ (c + 1) = 2 ^ c * 2 := by ring
        omega
      have hpos : 0 < 2 ^ c := Nat.pos_pow_of_pos c (by omega)
      rw [Nat.div_lt_iff_lt_mul hpos]
      calc (x.toNat - 2 ^ c) * 2 ^ 64 < 2 ^ c * 2 ^ 64 :=
            mul_lt_mul_of_pos_right hrem (by positivity)
        _ = 2 ^ 64 * 2 ^ c := by ring
    · have hnle : ¬ x ≤ 0 := not_le.mpr hx
      have hcs : countShifts x.toNat = c := countShifts_eq_log2 x.toNat
      have hsub : ((x.toNat - 2 ^ c : ℕ) : ℤ) = x - 2 ^ c := by
        push_cast [Nat.cast_sub hle]
        rw [hx']
      have htd : Int.tdiv ((x - 2 ^ c) * 2 ^ 64) (2 ^ c) =
          (((x.toNat - 2 ^ c) * 2 ^ 64 / 2 ^ c : ℕ) : ℤ) := by
        rw [← hsub]
        rw [show ((x.toNat - 2 ^ c : ℕ) : ℤ) * 2 ^ 64 =
            (((x.toNat - 2 ^ c) * 2 ^ 64 : ℕ) : ℤ) by push_cast; ring]
        rw [show ((2 : ℤ) ^ c) = ((2 ^ c : ℕ) : ℤ) by push_cast; ring]
        exact (Int.ofNat_tdiv _ _).symm
      simp only [logBigInt, if_neg hnle, hcs, SCALE_2E64]
      rw [htd]

/-- Concrete instance of C1 at `x = 12`: `c = 3`,
`m = (12 - 8) * 2^64 / 8 = 2^63`. -/
theorem logBigInt_correct_witness :
    ∃ c m : ℕ,
      (2 : ℤ) ^ c ≤ 12 ∧ (12 : ℤ) < 2 ^ (c + 1) ∧
      m = ((12 : ℤ).toNat - 2 ^ c) * 2 ^ 64 / 2 ^ c ∧ m < 2 ^ 64 ∧
      logBigInt 12 = (c : ℤ) * 2 ^ 64 + (m : ℤ) :=
  (logBigInt_correct 12).2 (by norm_num)

/-! ## Claim C2: sign consistency of `computeExactDeltaK` -/

/-- Claim C2.  For inputs with `minerDifficultyRaw > 0` and
`bestDiffNormalized` present and nonzero, with
`num = bestDiffNormalized * logBigInt(minerDiff) - 2^64 * minerDiff` as
computed by `computeExactDeltaK`: `num < 0` gives `deltaK < 0` and
`increasing = false`; `num > 0` gives `deltaK > 0` and
`increasing = true`; `num = 0` gives `deltaK = 0` — the sign survives the
exact division by `2^64 * minerDiff * 1000`. -/
theorem computeExactDeltaK_sign (b m : JSVal)
    (hm : 0 < hexToBigInt m) (hb : hexToBigInt b ≠ 0) :
    (hexToBigInt b * logBigInt (hexToBigInt m) - 2 ^ 64 * hexToBigInt m < 0 →
      (computeExactDeltaK b m).deltaK < 0 ∧
        (computeExactDeltaK b m).kQuaiIncrease = false) ∧
    (0 < hexToBigInt b * logBigInt (hexToBigInt m) - 2 ^ 64 * hexToBigInt m →
      0 < (computeExactDeltaK b m).deltaK ∧
        (computeExactDeltaK b m).kQuaiIncrease = true) ∧
    (hexToBigInt b * logBigInt (hexToBigInt m) - 2 ^ 64 * hexToBigInt m = 0 →
      (computeExactDeltaK b m).deltaK = 0) := by
  have hcond : ¬ (hexToBigInt b = 0 ∨ hexToBigInt m = 0 ∨ hexToBigInt m ≤ 0) := by
    rintro (h | h | h)
    · exact hb h
    · exact hm.ne' h
    · exact absurd hm (not_lt.mpr h)
  simp only [computeExactDeltaK, SCALE_2E64, ONE_OVER_ALPHA_BI, if_neg hcond]
  have hden : (0 : ℚ) < ((2 ^ 64 * hexToBigInt m * 1000 : ℤ) : ℚ) := by
    have : (0 : ℤ) < 2 ^ 64 * hexToBigInt m * 1000 := by positivity
    exact_mod_cast this
  refine ⟨fun hnum => ⟨?_, ?_⟩, fun hnum => ⟨?_, ?_⟩, fun hnum => ?_⟩
  · exact div_neg_of_neg_of_pos (by exact_mod_cast hnum) hden
  · simp only [decide_eq_false_iff_not, not_lt]
    omega
  · exact div_pos (by exact_mod_cast hnum) hden
  · simp only [decide_eq_true_eq]
    omega
  · rw [hnum]
    simp

/-- Concrete instance of C2: `best = 0x2`, `minerDiff = 0x64`;
`num = 2 * logBigInt(100) - 2^64 * 100 = -1390 * 2^60 < 0`, so
`deltaK < 0` and `increasing = false`. -/
theorem computeExactDeltaK_sign_witness :
    0 < hexToBigInt (.vStr "0x64") ∧ hexToBigInt (.vStr "0x2") ≠ 0 ∧
    hexToBigInt (.vStr "0x2") * logBigInt (hexToBigInt (.vStr "0x64")) -
        2 ^ 64 * hexToBigInt (.vStr "0x64") < 0 ∧
    (computeExactDeltaK (.vStr "0x2") (.vStr "0x64")).deltaK < 0 ∧
    (computeExactDeltaK (.vStr "0x2") (.vStr "0x64")).kQuaiIncrease = false := by
  have h64 : hexToBigInt (.vStr "0x64") = 100 := by decide
  have h2 : hexToBigInt (.vStr "0x2") = 2 := by decide
  have hcs : countShifts (Int.toNat 100) = 6 := by
    rw [show Int.toNat 100 = 100 from rfl, countShifts_eq_log2]
    simp [Nat.log2]
  have hlog : logBigInt 100 = 121056757983718932480 := by
    unfold logBigInt
    rw [if_neg (by norm_num)]
    simp only [SCALE_2E64, hcs]
    decide
  have hnum : hexToBigInt (.vStr "0x2") * logBigInt (hexToBigInt (.vStr "0x64")) -
      2 ^ 64 * hexToBigInt (.vStr "0x64") < 0 := by
    rw [h2, h64, hlog]
    norm_num
  have main := computeExactDeltaK_sign (.vStr "0x2") (.vStr "0x64")
    (by rw [h64]; norm_num) (by rw [h2]; norm_num)
  exact ⟨by rw [h64]; norm_num, by rw [h2]; norm_num, hnum,
    (main.1 hnum).1, (main.1 hnum).2⟩

/-! ## Claim C9: neutral defaults of `computeExactDeltaK` -/

/-- Claim C9.  When either input decodes to zero/absent or the miner
difficulty is nonpositive, `computeExactDeltaK` returns exactly
`{ratio = 1, deltaK = 0, increasing = false}`; in particular at
`bestDiffNormalized = 0x0`, `minerDifficultyRaw = 0x64`. -/
theorem computeExactDeltaK_neutral :
    (∀ b m : JSVal, hexToBigInt b = 0 ∨ hexToBigInt m ≤ 0 →
      computeExactDeltaK b m =
        { ratio := 1, deltaK := 0, kQuaiIncrease := false }) ∧
    computeExactDeltaK (.vStr "0x0") (.vStr "0x64") =
      { ratio := 1, deltaK := 0, kQuaiIncrease := false } := by
  constructor
  · intro b m h
    have hcond : hexToBigInt b = 0 ∨ hexToBigInt m = 0 ∨ hexToBigInt m ≤ 0 := by
      rcases h with h | h
      · exact Or.inl h
      · exact Or.inr (Or.inr h)
    unfold computeExactDeltaK
    rw [if_pos hcond]
  · decide

/-- Concrete application of C9's universal part at the claim's inputs. -/
theorem computeExactDeltaK_neutral_witness :
    computeExactDeltaK (.vStr "0x0") (.vStr "0x64") =
      { ratio := 1, deltaK := 0, kQuaiIncrease := false } :=
  computeExactDeltaK_neutral.1 (.vStr "0x0") (.vStr "0x64") (Or.inl (by decide))

/-! ## Headers, samples and the per-block sample builder
(src/main.js:758-812 and 1040-1069, identical bodies) -/

/-- The header fields the engine reads.  A field is `none` when absent or
JSON `null`. -/
structure Header where
  minerDifficulty : Option String
  exchangeRate : Option String
  deriving DecidableEq

/-- JS truthiness of an optional string field: absent, `null` and the
empty string are falsy. -/
def strTruthy : Option String → Bool
  | none => false
  | some s => !s.data.isEmpty

/-- Model of `combinedMap[id] || null` for a string-valued result. -/
def jsOrNull (o : Option String) : Option String :=
  if strTruthy o then o else none

/-- Access to `header.minerDifficulty` behind the `header && …` truthiness guard. -/
def hdrMinerDiff : Option Header → Option String
  | none => none
  | some h => h.minerDifficulty

/-- Access to `header.exchangeRate` behind the `header && …` truthiness guard. -/
def hdrExchangeRate : Option Header → Option String
  | none => none
  | some h => h.exchangeRate

/-- An optional string as the JS value handed to `hexToBigInt`. -/
def optJS : Option String → JSVal
  | none => .vNull
  | some s => .vStr s

/-- One entry of the in-memory series, exactly the object pushed at
src/main.js:802-811 (and 1069): `{primeNum, header, dInstant, dStar,
deltaK, ratio, convInfo, kQuai}`.  `convInfo` is always `null`. -/
structure Sample where
  primeNum : ℕ
  header : Option Header
  dInstant : Option Decimal
  dStar : Option Decimal
  deltaK : Decimal
  ratio : Decimal
  convInfo : Option Unit
  kQuai : Option String
  deriving DecidableEq

/-- Which of the three ratio/deltaK branches runs for the given decoded
per-block results: the exact formula (`bestRaw && header &&
header.minerDifficulty`), the approximate fallback (`minerRaw &&
bestRaw`), or the neutral default. -/
inductive CalcPath where
  | exact
  | fallback
  | neutral
  deriving DecidableEq

/-- The branch condition chain at src/main.js:788-800. -/
def pathOf (minerRes bestRes : Option String) (headerRes : Option Header) :
    CalcPath :=
  let minerRaw := jsOrNull minerRes
  let bestRaw := jsOrNull bestRes
  if bestRaw.isSome && headerRes.isSome && strTruthy (hdrMinerDiff headerRes) then
    .exact
  else if minerRaw.isSome && bestRaw.isSome then .fallback
  else .neutral

/-- The per-block body shared by `fetchWindowData` (src/main.js:758-812)
and `fetchAndAppendLatest` (src/main.js:1040-1069): decode the two
difficulty results, attach the header and its `exchangeRate`, and compute
`ratio`/`deltaK` through the exact formula, the approximate fallback, or
the neutral default. -/
def buildSample (minerRes bestRes : Option String) (headerRes : Option Header)
    (primeNum : ℕ) : Sample :=
  let minerRaw := jsOrNull minerRes
  let bestRaw := jsOrNull bestRes
  let dInstant : Option Decimal :=
    match minerRaw with
    | some s =>
        let mBig := hexToBigInt (.vStr s)
        if 0 < mBig then some (toDecimalFromBigInt mBig) else none
    | none => none
  let dStar : Option Decimal :=
    match bestRaw with
    | some s =>
        let bBig := hexToBigInt (.vStr s)
        if 0 < bBig then some (toDecimalFromBigInt bBig) else none
    | none => none
  let header := headerRes
  let kQuai : Option String :=
    if header.isSome && strTruthy (hdrExchangeRate header) then
      hdrExchangeRate header
    else none
  let rd : Decimal × Decimal :=
    if bestRaw.isSome && header.isSome && strTruthy (hdrMinerDiff header) then
      let r := computeExactDeltaK (optJS bestRaw) (optJS (hdrMinerDiff header))
      (r.ratio, r.deltaK)
    else if minerRaw.isSome && bestRaw.isSome then
      let r := computeRatioAndDeltaKFromNormHex (optJS bestRaw) (optJS minerRaw)
      (r.ratio, r.deltaK)
    else (1, 0)
  { primeNum := primeNum, header := header, dInstant := dInstant,
    dStar := dStar, deltaK := rd.2, ratio := rd.1, convInfo := none,
    kQuai := kQuai }

/-! ## The window rebuild `fetchWindowData` (src/main.js:687-842) -/

/-- One request of the combined batch.  The source correlates the three
per-block requests by the string ids `` `${n}_m` ``, `` `${n}_b` `` and
`` `${n}_h` ``; an id is modeled as the (blockNumber, method) pair it
encodes. -/
structure BatchItem where
  method : String
  blockNumber : ℕ
  deriving DecidableEq

/-- Decoded results of the node for the three per-block calls, per block
number.  `none` models an id whose entry of the merged id → result map is
missing or `null` (failed slice, per-item error, or absent field). -/
structure RpcResponses where
  minerRes : ℕ → Option String
  bestRes : ℕ → Option String
  headerRes : ℕ → Option Header

/-- Embedding of `startPrimeBlock = Math.max(0, latestPrimeBlock - totalPrime + 1)`
(src/main.js:711). -/
def startPrimeBlock (latestPrimeBlock totalPrime : ℕ) : ℕ :=
  (max 0 ((latestPrimeBlock : ℤ) - totalPrime + 1)).toNat

/-- The contiguous inclusive block range
`[startPrimeBlock .. latestPrimeBlock]` (src/main.js:716-717). -/
def primeNums (latestPrimeBlock totalPrime : ℕ) : List ℕ :=
  List.range' (startPrimeBlock latestPrimeBlock totalPrime)
    (latestPrimeBlock + 1 - startPrimeBlock latestPrimeBlock totalPrime)

/-- The three per-block requests pushed per prime number
(src/main.js:728-732 and 1026-1030). -/
def blockRequests (n : ℕ) : List BatchItem :=
  [{ method := "quai_getMinerDiffNormalized", blockNumber := n },
   { method := "quai_getBestDiffNormalized", blockNumber := n },
   { method := "quai_getHeaderByNumber", blockNumber := n }]

/-- The combined batch built by `fetchWindowData` (src/main.js:727-732). -/
def combinedBatch (latestPrimeBlock totalPrime : ℕ) : List BatchItem :=
  (primeNums latestPrimeBlock totalPrime).flatMap blockRequests

/-- The per-block decode loop of `fetchWindowData` (src/main.js:758-812):
one sample per prime number of the window, in order. -/
def buildSeries (latestPrimeBlock totalPrime : ℕ) (o : RpcResponses) :
    List Sample :=
  (primeNums latestPrimeBlock totalPrime).map fun n =>
    buildSample (o.minerRes n) (o.bestRes n) (o.headerRes n) n

/-- Effect of `fetchWindowData` on `currentSeries` (src/main.js:687-842).
`latestBlockResult = none` models a failed `quai_blockNumber` call (the
surrounding try/catch then leaves `currentSeries` untouched).  Otherwise
the per-block batch results arrive through `o` — every combined-batch
failure path converges to a (possibly empty) merged map, never to a
throw.  The only other throws caught by the handler fire exactly when the
built series is empty. -/
def fetchWindowData (prior : List Sample) (latestBlockResult : Option ℕ)
    (o : RpcResponses) (totalPrime : ℕ) : List Sample :=
  match latestBlockResult with
  | none => prior
  | some latest =>
      let series := buildSeries latest totalPrime o
      if series = [] then prior else series

/-! ## Incremental append `fetchAndAppendLatest` (src/main.js:1001-1098) -/

/-- Effect of `fetchAndAppendLatest` on `currentSeries`, paired with the
per-block batch requests it issues (src/main.js:1008-1083).  The
empty-series branch delegates to a full refresh (src/main.js:1008-1012)
and issues no per-block request of its own; the window trim
`while (length > totalPrime) shift()` drops from the front. -/
def fetchAndAppendLatest (series : List Sample) (latestPrimeBlock : ℕ)
    (o : RpcResponses) (totalPrime : ℕ) : List Sample × List BatchItem :=
  match series.getLast? with
  | none => (series, [])
  | some lastS =>
      let lastPrimeNum := lastS.primeNum
      if latestPrimeBlock ≤ lastPrimeNum then (series, [])
      else
        let newPrimes := List.range' (lastPrimeNum + 1)
          (latestPrimeBlock - lastPrimeNum)
        let batch := newPrimes.flatMap blockRequests
        let appended := series ++ newPrimes.map fun n =>
          buildSample (o.minerRes n) (o.bestRes n) (o.headerRes n) n
        let trimmed := appended.drop (appended.length - totalPrime)
        (trimmed, batch)

/-! ## `sendBatchWithLimit` (src/main.js:608-632) -/

/-- The slicing loop `for (let i = 0; i < arr.length; i += step)
arr.slice(i, i + step)` — also the chunking loop of `updateUIFromSeries`
(src/main.js:60-61).  The JS loop never terminates for `step = 0`; every
caller passes a positive step, and that case returns `[]` here. -/
def slicesOf (step : ℕ) (l : List α) : List (List α) :=
  if step = 0 then []
  else
    match l with
    | [] => []
    | x :: xs => ((x :: xs).take step) :: slicesOf step ((x :: xs).drop step)
termination_by l.length
decreasing_by
  simp only [List.length_drop, List.length_cons]
  omega

/-- The id → result map one successful `rpcBatch` POST of `slice` returns
when every item succeeds: each request id mapped to its result
(src/main.js:567-604). -/
def rpcBatchMap (resp : ℕ → V) (slice : List ℕ) : List (ℕ × V) :=
  slice.map fun id => (id, resp id)

/-- The merge loop of `sendBatchWithLimit` (src/main.js:620-630): the
`k`-th POST either succeeds (`ok k`) and its whole slice is merged, or
fails and is skipped.  Requests carry pairwise distinct ids at every call
site, so modeling the JS object merge as list concatenation looked up
left to right is faithful. -/
def mergeSlices (ok : ℕ → Bool) (resp : ℕ → V) :
    ℕ → List (List ℕ) → List (ℕ × V)
  | _, [] => []
  | k, s :: rest =>
      (if ok k then rpcBatchMap resp s else []) ++
        mergeSlices ok resp (k + 1) rest

/-- Embedding of `sendBatchWithLimit` (src/main.js:608-632), returning the outcome
(`Except.error` models the rethrown single-batch failure) together with
the slices actually POSTed, in order.  A request is modeled by its id;
`ok k` tells whether the `k`-th POST of this invocation succeeds
(`retries` is 0 at every call site, so one rpcBatch call is one POST). -/
def sendBatchWithLimit (ok : ℕ → Bool) (resp : ℕ → V) (batchReq : List ℕ)
    (maxPer : ℕ) : Except Unit (List (ℕ × V)) × List (List ℕ) :=
  if batchReq = [] then (.ok [], [])
  else if batchReq.length ≤ maxPer then
    if ok 0 then (.ok (rpcBatchMap resp batchReq), [batchReq])
    else (.error (), [batchReq])
  else
    let slices := slicesOf maxPer batchReq
    (.ok (mergeSlices ok resp 0 slices), slices)

/-! ## Chunk aggregation in `updateUIFromSeries` (src/main.js:54-74) -/

/-- One point of the downsampled chart data: the label endpoints and the
three per-chunk averages (src/main.js:63-73). -/
structure ChunkPoint where
  firstPrime : ℕ
  lastPrime : ℕ
  avgD : Decimal
  avgDStar : Decimal
  avgDk : Decimal
  deriving DecidableEq

/-- The chunking loop of `updateUIFromSeries` (src/main.js:60-74): slices
of `chunkSizePrime` consecutive samples, each averaged with `avgDec`.
(`slicesOf` produces no empty chunk, so the `continue` guard never
fires.) -/
def aggregateSeries (series : List Sample) (chunkSizePrime : ℕ) :
    List ChunkPoint :=
  (slicesOf chunkSizePrime series).map fun chunk =>
    { firstPrime := ((chunk.head?).map Sample.primeNum).getD 0,
      lastPrime := ((chunk.getLast?).map Sample.primeNum).getD 0,
      avgD := avgDec (chunk.map Sample.dInstant),
      avgDStar := avgDec (chunk.map Sample.dStar),
      avgDk := avgDec (chunk.map fun x => some x.deltaK) }

/-! ## Claim C7: `fetchAndAppendLatest` is a no-op when not behind -/

/-- Claim C7.  When the latest block does not exceed the last block of a
nonempty series, `fetchAndAppendLatest` returns the series completely
unchanged and issues zero per-block batch requests
(src/main.js:1014-1015). -/
theorem fetchAndAppendLatest_noop (series : List Sample) (latest : ℕ)
    (o : RpcResponses) (totalPrime : ℕ) (lastS : Sample)
    (hlast : series.getLast? = some lastS)
    (hle : latest ≤ lastS.primeNum) :
    fetchAndAppendLatest series latest o totalPrime = (series, []) := by
  unfold fetchAndAppendLatest
  rw [hlast]
  simp [hle]

/-- Concrete instance of C7: a one-sample series at block 5, polled with
`latestBlock = 5`. -/
theorem fetchAndAppendLatest_noop_witness :
    fetchAndAppendLatest [⟨5, none, none, none, 0, 1, none, none⟩] 5
      ⟨fun _ => none, fun _ => none, fun _ => none⟩ 4000 =
      ([⟨5, none, none, none, 0, 1, none, none⟩], []) :=
  fetchAndAppendLatest_noop _ _ _ _ ⟨5, none, none, none, 0, 1, none, none⟩
    rfl (by norm_num)

/-! ## Claim C3: the rebuild is not atomic on batch failure -/

/-- The oracle of a rebuild whose per-block batch fetches all failed: the
merged id → result map is empty, so every lookup yields `null`. -/
def emptyResponses : RpcResponses :=
  ⟨fun _ => none, fun _ => none, fun _ => none⟩

/-- A one-sample prior series with distinctive field values. -/
def priorSeriesC3 : List Sample :=
  [⟨1, none, some 7, some 8, 5, 2, none, none⟩]

/-- Claim C3 is false on the code.  A rebuild whose per-block batch fetches
all fail (none of the ids of the range `[1, 2]` resolves — the full range
is not obtained) still replaces the prior series: the catch-all around
`sendBatchWithLimit` degrades the merged map to `{}`, the decode loop
then builds a full window of neutral-default samples, and
`currentSeries = series` installs it (src/main.js:750-755, 758-819). -/
theorem fetchWindowData_not_atomic :
    ((primeNums 2 2).all fun n =>
      (emptyResponses.minerRes n).isNone && (emptyResponses.bestRes n).isNone &&
        (emptyResponses.headerRes n).isNone) = true ∧
    fetchWindowData priorSeriesC3 (some 2) emptyResponses 2 ≠ priorSeriesC3 := by
  constructor
  · decide
  · decide

/-- Claim C3, amended.  The prior series survives a rebuild only when the
`quai_blockNumber` call fails or the computed block range is empty; when
the per-block batch results are missing (failed or incomplete fetches),
the rebuild still replaces the prior series wholesale, each unresolved
block degraded to a neutral-default sample
(`dInstant = dStar = null`, `deltaK = 0`, `ratio = 1`). -/
theorem fetchWindowData_failure_modes :
    (∀ (prior : List Sample) (o : RpcResponses) (totalPrime : ℕ),
      fetchWindowData prior none o totalPrime = prior) ∧
    (∀ (prior : List Sample) (latest : ℕ) (o : RpcResponses) (totalPrime : ℕ),
      primeNums latest totalPrime = [] →
      fetchWindowData prior (some latest) o totalPrime = prior) ∧
    (∀ (prior : List Sample) (latest totalPrime : ℕ),
      primeNums latest totalPrime ≠ [] →
      fetchWindowData prior (some latest) emptyResponses totalPrime =
        (primeNums latest totalPrime).map fun n =>
          ⟨n, none, none, none, 0, 1, none, none⟩) := by
  refine ⟨fun prior o t => rfl, fun prior latest o t h => ?_, fun prior latest t h => ?_⟩
  · simp [fetchWindowData, buildSeries, h]
  · have hb : buildSeries latest t emptyResponses =
        (primeNums latest t).map fun n =>
          (⟨n, none, none, none, 0, 1, none, none⟩ : Sample) := rfl
    have hne : buildSeries latest t emptyResponses ≠ [] := by
      rw [hb]
      simpa using h
    simp only [fetchWindowData, if_neg hne]
    exact hb

/-- Concrete instance of the amended C3: a wholly failed batch over the
range `[1]` replaces the (empty) prior series with a neutral sample. -/
theorem fetchWindowData_failure_modes_witness :
    fetchWindowData [] (some 1) emptyResponses 1 =
      (primeNums 1 1).map fun n => ⟨n, none, none, none, 0, 1, none, none⟩ :=
  fetchWindowData_failure_modes.2.2 [] 1 1 (by decide)

/-! ## Claim C4: rebuild of the 4000-block window -/

theorem primeNums_10000_4000 : primeNums 10000 4000 = List.range' 6001 4000 := by
  have hs : startPrimeBlock 10000 4000 = 6001 := by decide
  rw [primeNums, hs]

theorem flatMap_ite_eq_nil {α β : Type} [DecidableEq α] (l : List α) (n : α)
    (g : α → List β) (h : n ∉ l) :
    (l.flatMap fun a => if a = n then g a else []) = [] := by
  induction l with
  | nil => rfl
  | cons x xs ih =>
      simp only [List.flatMap_cons]
      rw [if_neg (by rintro rfl; exact h (List.mem_cons_self x xs)),
        ih (fun hm => h (List.mem_cons_of_mem x hm))]
      simp

theorem flatMap_ite_of_nodup {α β : Type} [DecidableEq α] (l : List α) (n : α)
    (g : α → List β) (hnd : l.Nodup) (hmem : n ∈ l) :
    (l.flatMap fun a => if a = n then g a else []) = g n := by
  induction l with
  | nil => cases hmem
  | cons x xs ih =>
      simp only [List.flatMap_cons]
      rcases List.mem_cons.mp hmem with rfl | hm
      · rw [if_pos rfl,
          flatMap_ite_eq_nil xs n g (List.nodup_cons.mp hnd).1]
        simp
      · have hx : x ≠ n := by
          rintro rfl
          exact (List.nodup_cons.mp hnd).1 hm
        rw [if_neg hx, ih (List.nodup_cons.mp hnd).2 hm]
        simp

/-- Claim C4.  A rebuild with `latestBlock = 10000` and `W = 4000` in which
every RPC result is available yields exactly 4000 samples whose block
numbers are exactly the contiguous range `6001..10000`, strictly
ascending (hence no gaps or duplicates), and each block of the range
contributes exactly its 3 correlated batch requests (normalized miner
difficulty, normalized best difficulty, header). -/
theorem rebuild_window_spec (o : RpcResponses)
    (_hall : ∀ n ∈ primeNums 10000 4000,
      (o.minerRes n).isSome ∧ (o.bestRes n).isSome ∧ (o.headerRes n).isSome) :
    (buildSeries 10000 4000 o).length = 4000 ∧
    (buildSeries 10000 4000 o).map Sample.primeNum = List.range' 6001 4000 ∧
    List.Pairwise (· < ·) ((buildSeries 10000 4000 o).map Sample.primeNum) ∧
    ∀ n, 6001 ≤ n → n ≤ 10000 →
      (((combinedBatch 10000 4000).filter fun it => it.blockNumber == n).map
        BatchItem.method) =
        ["quai_getMinerDiffNormalized", "quai_getBestDiffNormalized",
          "quai_getHeaderByNumber"] := by
  have hmap : (buildSeries 10000 4000 o).map Sample.primeNum =
      List.range' 6001 4000 := by
    rw [buildSeries, primeNums_10000_4000, List.map_map]
    have : (Sample.primeNum ∘ fun n =>
        buildSample (o.minerRes n) (o.bestRes n) (o.headerRes n) n) = id := by
      funext n
      rfl
    rw [this, List.map_id]
  refine ⟨?_, hmap, ?_, ?_⟩
  · rw [buildSeries, primeNums_10000_4000]
    simp
  · rw [hmap]
    exact List.pairwise_lt_range' 6001 4000
  · intro n h1 h2
    have hfil : ∀ a : ℕ, ((blockRequests a).filter fun it => it.blockNumber == n) =
        if a = n then blockRequests a else [] := by
      intro a
      by_cases ha : a = n
      · subst ha
        simp [blockRequests, List.filter]
      · have hb : (a == n) = false := beq_eq_false_iff_ne.mpr ha
        simp [blockRequests, List.filter, hb, ha]
    rw [combinedBatch, primeNums_10000_4000, List.filter_flatMap]
    rw [show (fun a => (blockRequests a).filter fun it => it.blockNumber == n) =
        fun a => if a = n then blockRequests a else [] from funext hfil]
    rw [flatMap_ite_of_nodup _ n _ (List.nodup_range' 6001 4000)
      (List.mem_range'_1.mpr ⟨h1, by omega⟩)]
    rfl

/-- Concrete instance of C4 with an oracle answering every request. -/
theorem rebuild_window_spec_witness :
    (buildSeries 10000 4000
        ⟨fun _ => some "0x2", fun _ => some "0x2",
          fun _ => some ⟨some "0x2", none⟩⟩).map Sample.primeNum =
      List.range' 6001 4000 :=
  (rebuild_window_spec
    ⟨fun _ => some "0x2", fun _ => some "0x2", fun _ => some ⟨some "0x2", none⟩⟩
    (fun _ _ => ⟨rfl, rfl, rfl⟩)).2.1

/-! ## Slicing and averaging lemmas, and claim C8 -/

theorem slicesOf_nil (step : ℕ) : slicesOf step ([] : List α) = [] := by
  rw [slicesOf]
  split <;> rfl

theorem slicesOf_cons (step : ℕ) (h : step ≠ 0) (l : List α) (hl : l ≠ []) :
    slicesOf step l = l.take step :: slicesOf step (l.drop step) := by
  obtain ⟨x, xs, rfl⟩ := List.exists_cons_of_ne_nil hl
  rw [slicesOf, if_neg h]

theorem slicesOf_flatten (step : ℕ) (hstep : step ≠ 0) (l : List α) :
    (slicesOf step l).flatten = l := by
  have H : ∀ k (l : List α), l.length ≤ k → (slicesOf step l).flatten = l := by
    intro k
    induction k with
    | zero =>
        intro l hl
        have h0 : l = [] := List.length_eq_zero.mp (by omega)
        subst h0
        rw [slicesOf_nil]
        rfl
    | succ k ih =>
        intro l hl
        rcases eq_or_ne l [] with rfl | hne
        · rw [slicesOf_nil]
          rfl
        · rw [slicesOf_cons step hstep l hne]
          simp only [List.flatten_cons]
          rw [ih (l.drop step) (by
            have h1 : 0 < l.length := List.length_pos.mpr hne
            simp only [List.length_drop]
            omega)]
          exact List.take_append_drop step l
  exact H l.length l le_rfl

theorem slicesOf_length_eq (step : ℕ) (hstep : step ≠ 0) (l : List α) :
    (slicesOf step l).length = (l.length + step - 1) / step := by
  have H : ∀ k (l : List α), l.length ≤ k →
      (slicesOf step l).length = (l.length + step - 1) / step := by
    intro k
    induction k with
    | zero =>
        intro l hl
        have h0 : l = [] := List.length_eq_zero.mp (by omega)
        subst h0
        rw [slicesOf_nil]
        simp only [List.length_nil]
        rw [show 0 + step - 1 = step - 1 by omega,
          Nat.div_eq_of_lt (by omega : step - 1 < step)]
    | succ k ih =>
        intro l hl
        rcases eq_or_ne l [] with rfl | hne
        · rw [slicesOf_nil]
          simp only [List.length_nil]
          rw [show 0 + step - 1 = step - 1 by omega,
            Nat.div_eq_of_lt (by omega : step - 1 < step)]
        · have hpos : 0 < l.length := List.length_pos.mpr hne
          rw [slicesOf_cons step hstep l hne]
          simp only [List.length_cons]
          rw [ih (l.drop step) (by simp only [List.length_drop]; omega)]
          simp only [List.length_drop]
          have hnum : l.length - step + step - 1 = if l.length ≤ step
              then step - 1 else l.length - 1 := by
            split <;> omega
          rw [hnum]
          split
          · rename_i hle
            rw [Nat.div_eq_of_lt (by omega : step - 1 < step)]
            have : l.length + step - 1 = (l.length - 1) + step := by omega
            rw [this, Nat.add_div_right _ (by omega)]
            rw [Nat.div_eq_of_lt (by omega : l.length - 1 < step)]
          · rename_i hgt
            have : l.length + step - 1 = (l.length - 1) + step := by omega
            rw [this, Nat.add_div_right _ (by omega)]
  exact H l.length l le_rfl

theorem slicesOf_mem_bounds (step : ℕ) (hstep : step ≠ 0) (l : List α) :
    ∀ ch ∈ slicesOf step l, ch ≠ [] ∧ ch.length ≤ step := by
  have H : ∀ k (l : List α), l.length ≤ k →
      ∀ ch ∈ slicesOf step l, ch ≠ [] ∧ ch.length ≤ step := by
    intro k
    induction k with
    | zero =>
        intro l hl ch hch
        have h0 : l = [] := List.length_eq_zero.mp (by omega)
        subst h0
        rw [slicesOf_nil] at hch
        cases hch
    | succ k ih =>
        intro l hl ch hch
        rcases eq_or_ne l [] with rfl | hne
        · rw [slicesOf_nil] at hch
          cases hch
        · have hpos : 0 < l.length := List.length_pos.mpr hne
          rw [slicesOf_cons step hstep l hne] at hch
          rcases List.mem_cons.mp hch with rfl | hm
          · constructor
            · simp only [ne_eq, List.take_eq_nil_iff]
              push_neg
              exact ⟨fun h => absurd h hstep, fun h => absurd h hne⟩
            · simp only [List.length_take]
              omega
          · exact ih (l.drop step) (by simp only [List.length_drop]; omega) ch hm
  exact H l.length l le_rfl

theorem slicesOf_dropLast_length (step : ℕ) (hstep : step ≠ 0) (l : List α) :
    ∀ ch ∈ (slicesOf step l).dropLast, ch.length = step := by
  have H : ∀ k (l : List α), l.length ≤ k →
      ∀ ch ∈ (slicesOf step l).dropLast, ch.length = step := by
    intro k
    induction k with
    | zero =>
        intro l hl ch hch
        have h0 : l = [] := List.length_eq_zero.mp (by omega)
        subst h0
        rw [slicesOf_nil] at hch
        cases hch
    | succ k ih =>
        intro l hl ch hch
        rcases eq_or_ne l [] with rfl | hne
        · rw [slicesOf_nil] at hch
          cases hch
        · have hpos : 0 < l.length := List.length_pos.mpr hne
          rw [slicesOf_cons step hstep l hne] at hch
          rcases hrest : slicesOf step (l.drop step) with _ | ⟨r, rs⟩
          · rw [hrest] at hch
            cases hch
          · rw [hrest, List.dropLast_cons₂] at hch
            have hlen : step ≤ l.length := by
              by_contra hgt
              have hdrop : l.drop step = [] :=
                List.drop_eq_nil_of_le (by omega)
              rw [hdrop, slicesOf_nil] at hrest
              cases hrest
            rcases List.mem_cons.mp hch with rfl | hm
            · simp only [List.length_take]
              omega
            · have := ih (l.drop step)
                (by simp only [List.length_drop]; omega) ch
              rw [hrest] at this
              exact this hm
  exact H l.length l le_rfl

theorem foldl_add_getD (l : List (Option ℚ)) (a : ℚ) :
    l.foldl (fun sum v => sum + v.getD 0) a =
      a + (l.map fun v => v.getD 0).sum := by
  induction l generalizing a with
  | nil => simp
  | cons x xs ih => simp [ih, add_assoc]

/-- Closed form of `avgDec`: the exact sum of the entries (a `null`
contributing its neutral default `0`) divided by the entry count. -/
theorem avgDec_eq (l : List (Option Decimal)) :
    avgDec l = (l.map fun v => v.getD 0).sum / (l.length : ℚ) := by
  unfold avgDec
  rcases eq_or_ne l [] with rfl | h
  · simp
  · rw [if_neg h, foldl_add_getD]
    simp

/-- Claim C8.  The chunking loop of `updateUIFromSeries` partitions the
series into consecutive groups of `chunkSize` samples in order (the
flattened chunks restore the series, every chunk is nonempty of at most
`chunkSize` samples, and all but the last have exactly `chunkSize`); a
4000-sample series with `chunkSize = 200` yields exactly 20 chunks; each
chunk's `avgDeltaK` (resp. `avgD`) is the exact decimal sum of the
chunk's `deltaK` (resp. `dInstant`, `null` contributing its neutral
default 0) divided by the chunk's sample count.  The aggregation is a
pure function of the series, which it never mutates. -/
theorem aggregate_spec (series : List Sample) (c : ℕ) (hc : 0 < c) :
    (slicesOf c series).flatten = series ∧
    (∀ ch ∈ slicesOf c series, ch ≠ [] ∧ ch.length ≤ c) ∧
    (∀ ch ∈ (slicesOf c series).dropLast, ch.length = c) ∧
    (series.length = 4000 → c = 200 → (slicesOf c series).length = 20) ∧
    ((aggregateSeries series c).map ChunkPoint.avgDk =
      (slicesOf c series).map fun ch =>
        (ch.map Sample.deltaK).sum / (ch.length : ℚ)) ∧
    ((aggregateSeries series c).map ChunkPoint.avgD =
      (slicesOf c series).map fun ch =>
        (ch.map fun s => s.dInstant.getD 0).sum / (ch.length : ℚ)) := by
  have hc' : c ≠ 0 := hc.ne'
  refine ⟨slicesOf_flatten c hc' series, slicesOf_mem_bounds c hc' series,
    slicesOf_dropLast_length c hc' series, ?_, ?_, ?_⟩
  · intro h4000 h200
    rw [slicesOf_length_eq c hc' series, h4000, h200]
  · rw [aggregateSeries, List.map_map]
    refine List.map_congr_left fun ch _ => ?_
    simp only [Function.comp]
    rw [avgDec_eq, List.map_map]
    rw [show ((fun v : Option ℚ => v.getD 0) ∘ fun x : Sample => some x.deltaK) =
      Sample.deltaK from funext fun x => rfl]
    simp
  · rw [aggregateSeries, List.map_map]
    refine List.map_congr_left fun ch _ => ?_
    simp only [Function.comp]
    rw [avgDec_eq, List.map_map]
    rw [show ((fun v : Option ℚ => v.getD 0) ∘ Sample.dInstant) =
      fun s : Sample => s.dInstant.getD 0 from funext fun x => rfl]
    simp

/-- Concrete instance of C8 on a two-sample series with `chunkSize = 2`. -/
theorem aggregate_spec_witness :
    (slicesOf 2 [(⟨1, none, none, none, 3, 1, none, none⟩ : Sample),
      ⟨2, none, none, none, 5, 1, none, none⟩]).flatten =
      [(⟨1, none, none, none, 3, 1, none, none⟩ : Sample),
        ⟨2, none, none, none, 5, 1, none, none⟩] :=
  (aggregate_spec _ 2 (by norm_num)).1

/-! ## Claim C5: `sendBatchWithLimit` slicing and best-effort merge -/

theorem lookup_rpcBatchMap_of_mem {V : Type} (resp : ℕ → V) (a n id : ℕ)
    (h1 : a ≤ id) (h2 : id < a + n) :
    List.lookup id (rpcBatchMap resp (List.range' a n)) = some (resp id) := by
  induction n generalizing a with
  | zero => omega
  | succ n ih =>
      rw [List.range'_succ]
      simp only [rpcBatchMap, List.map_cons, List.lookup]
      rcases eq_or_ne id a with rfl | hne
      · simp
      · rw [show (id == a) = false from beq_eq_false_iff_ne.mpr hne]
        exact ih (a + 1) (by omega) (by omega)

theorem lookup_rpcBatchMap_of_not_mem {V : Type} (resp : ℕ → V) (a n id : ℕ)
    (h : id < a ∨ a + n ≤ id) :
    List.lookup id (rpcBatchMap resp (List.range' a n)) = none := by
  induction n generalizing a with
  | zero => rfl
  | succ n ih =>
      rw [List.range'_succ]
      simp only [rpcBatchMap, List.map_cons, List.lookup]
      have hne : id ≠ a := by omega
      rw [show (id == a) = false from beq_eq_false_iff_ne.mpr hne]
      exact ih (a + 1) (by omega)

theorem lookup_append_of_eq_some {V : Type} (id : ℕ) (v : V)
    (xs ys : List (ℕ × V)) (h : List.lookup id xs = some v) :
    List.lookup id (xs ++ ys) = some v := by
  induction xs with
  | nil => simp [List.lookup] at h
  | cons p t ih =>
      obtain ⟨k, w⟩ := p
      simp only [List.lookup, List.cons_append] at h ⊢
      rcases hb : (id == k) with _ | _
      · rw [hb] at h
        exact ih h
      · rw [hb] at h
        exact h

theorem lookup_append_of_eq_none {V : Type} (id : ℕ)
    (xs ys : List (ℕ × V)) (h : List.lookup id xs = none) :
    List.lookup id (xs ++ ys) = List.lookup id ys := by
  induction xs with
  | nil => rfl
  | cons p t ih =>
      obtain ⟨k, w⟩ := p
      simp only [List.lookup, List.cons_append] at h ⊢
      rcases hb : (id == k) with _ | _
      · rw [hb] at h
        exact ih h
      · rw [hb] at h
        cases h

theorem range_5000_split :
    List.range 5000 = List.range' 0 2000 ++
      (List.range' 2000 2000 ++ List.range' 4000 1000) := by
  have a1 : List.range' 2000 2000 ++ List.range' 4000 1000 =
      List.range' 2000 3000 := by
    have := List.range'_append 2000 2000 1000 1
    simpa using this
  have a2 : List.range' 0 2000 ++ List.range' 2000 3000 =
      List.range' 0 5000 := by
    have := List.range'_append 0 2000 3000 1
    simpa using this
  rw [List.range_eq_range', a1, a2]

theorem take_append_of_length_eq (A B : List α) (k : ℕ) (h : A.length = k) :
    (A ++ B).take k = A := by
  subst h
  exact List.take_left A B

theorem drop_append_of_length_eq (A B : List α) (k : ℕ) (h : A.length = k) :
    (A ++ B).drop k = B := by
  subst h
  exact List.drop_left A B

theorem slicesOf_range_5000 :
    slicesOf 2000 (List.range 5000) =
      [List.range' 0 2000, List.range' 2000 2000, List.range' 4000 1000] := by
  rw [range_5000_split]
  have t1 := take_append_of_length_eq (List.range' 0 2000)
    (List.range' 2000 2000 ++ List.range' 4000 1000) 2000 (by simp)
  have d1 := drop_append_of_length_eq (List.range' 0 2000)
    (List.range' 2000 2000 ++ List.range' 4000 1000) 2000 (by simp)
  have t2 := take_append_of_length_eq (List.range' 2000 2000)
    (List.range' 4000 1000) 2000 (by simp)
  have d2 := drop_append_of_length_eq (List.range' 2000 2000)
    (List.range' 4000 1000) 2000 (by simp)
  rw [slicesOf_cons 2000 (by norm_num) _ (by simp), t1, d1]
  rw [slicesOf_cons 2000 (by norm_num) _ (by simp), t2, d2]
  rw [slicesOf_cons 2000 (by norm_num) _ (by simp),
    List.take_of_length_le (by simp), List.drop_eq_nil_of_le (by simp),
    slicesOf_nil]

/-- Claim C5 is false on the code in one corner.  On the empty request list
(count `0 ≤ maxItemsPerPost`) `sendBatchWithLimit` returns `{}` without
issuing any POST (src/main.js:609), so it does not delegate to a single
batch POST as claimed for every list with `count <= maxItemsPerPost`. -/
theorem sendBatchWithLimit_empty_counterexample :
    (sendBatchWithLimit (fun _ => true) (fun _ => (0 : ℕ)) ([] : List ℕ)
      2000).2.length = 0 ∧
    (sendBatchWithLimit (fun _ => true) (fun _ => (0 : ℕ)) ([] : List ℕ)
      2000).2 ≠ [([] : List ℕ)] := by
  constructor
  · rfl
  · decide

/-- Claim C5, amended.  On 5000 requests with `maxItemsPerPost = 2000`,
`sendBatchWithLimit` issues exactly 3 sequential POSTs whose slices are
the consecutive id ranges of sizes 2000, 2000, 1000; if exactly the
middle POST fails, the failing slice is skipped and the merged map
resolves every id of slices 1 and 3 and none of slice 2; and every
*nonempty* request list with `count ≤ maxItemsPerPost` delegates to a
single batch POST of the whole list (the empty list returns `{}` with no
POST at all). -/
theorem sendBatchWithLimit_spec :
    (∀ (V : Type) (ok : ℕ → Bool) (resp : ℕ → V),
      (sendBatchWithLimit ok resp (List.range 5000) 2000).2 =
        [List.range' 0 2000, List.range' 2000 2000, List.range' 4000 1000] ∧
      (sendBatchWithLimit ok resp (List.range 5000) 2000).2.map
        List.length = [2000, 2000, 1000]) ∧
    (∀ (V : Type) (resp : ℕ → V),
      (sendBatchWithLimit (fun k => k != 1) resp (List.range 5000) 2000).1 =
        .ok (rpcBatchMap resp (List.range' 0 2000) ++
          rpcBatchMap resp (List.range' 4000 1000)) ∧
      (∀ id, id < 2000 →
        List.lookup id (rpcBatchMap resp (List.range' 0 2000) ++
          rpcBatchMap resp (List.range' 4000 1000)) = some (resp id)) ∧
      (∀ id, 2000 ≤ id → id < 4000 →
        List.lookup id (rpcBatchMap resp (List.range' 0 2000) ++
          rpcBatchMap resp (List.range' 4000 1000)) = none) ∧
      (∀ id, 4000 ≤ id → id < 5000 →
        List.lookup id (rpcBatchMap resp (List.range' 0 2000) ++
          rpcBatchMap resp (List.range' 4000 1000)) = some (resp id))) ∧
    (∀ (V : Type) (ok : ℕ → Bool) (resp : ℕ → V) (l : List ℕ) (maxPer : ℕ),
      l ≠ [] → l.length ≤ maxPer →
      sendBatchWithLimit ok resp l maxPer =
        (if ok 0 then .ok (rpcBatchMap resp l) else .error (), [l])) := by
  have hposts : ∀ (V : Type) (ok : ℕ → Bool) (resp : ℕ → V),
      sendBatchWithLimit ok resp (List.range 5000) 2000 =
        (.ok (mergeSlices ok resp 0
          [List.range' 0 2000, List.range' 2000 2000, List.range' 4000 1000]),
          [List.range' 0 2000, List.range' 2000 2000,
            List.range' 4000 1000]) := by
    intro V ok resp
    rw [sendBatchWithLimit,
      if_neg (by simp [List.range_eq_nil]),
      if_neg (by simp),
      slicesOf_range_5000]
  refine ⟨fun V ok resp => ?_, fun V resp => ?_, fun V ok resp l maxPer h1 h2 => ?_⟩
  · rw [hposts]
    constructor
    · rfl
    · simp
  · have hmerge : mergeSlices (fun k => k != 1) resp 0
        [List.range' 0 2000, List.range' 2000 2000, List.range' 4000 1000] =
        rpcBatchMap resp (List.range' 0 2000) ++
          rpcBatchMap resp (List.range' 4000 1000) := by
      simp [mergeSlices]
    refine ⟨?_, fun id hid => ?_, fun id h1 h2 => ?_, fun id h1 h2 => ?_⟩
    · rw [hposts, hmerge]
    · exact lookup_append_of_eq_some id (resp id) _ _
        (lookup_rpcBatchMap_of_mem resp 0 2000 id (by omega) (by omega))
    · rw [lookup_append_of_eq_none id _ _
        (lookup_rpcBatchMap_of_not_mem resp 0 2000 id (by omega))]
      exact lookup_rpcBatchMap_of_not_mem resp 4000 1000 id (by omega)
    · rw [lookup_append_of_eq_none id _ _
        (lookup_rpcBatchMap_of_not_mem resp 0 2000 id (by omega))]
      exact lookup_rpcBatchMap_of_mem resp 4000 1000 id (by omega) (by omega)
  · rw [sendBatchWithLimit, if_neg h1, if_pos h2]
    rcases hok : ok 0 with _ | _ <;> simp [hok]

/-- Concrete instance of the amended C5: a single-request list below the
limit goes out as one POST of the whole list. -/
theorem sendBatchWithLimit_spec_witness :
    sendBatchWithLimit (fun _ => true) (fun i => i + 1) [7] 5 =
      (.ok (rpcBatchMap (fun i => i + 1) [7]), [[7]]) := by
  have h := sendBatchWithLimit_spec.2.2 ℕ (fun _ => true) (fun i => i + 1)
    [7] 5 (by decide) (by norm_num)
  simpa using h

/-! ## Claim C6: provenance of fallback-computed samples -/

theorem buildSample_header (mi be : Option String) (hd : Option Header)
    (n : ℕ) : (buildSample mi be hd n).header = hd := rfl

/-- Claim C6 is false on the code.  The stored sample record carries no
provenance marker of the computing formula: a sample computed via the
approximate fallback (`minerRaw = "0x0"`, `bestRaw = "0x5"`, no header)
is identical, field for field, to a sample computed via no formula at all
(the neutral-default branch, `minerRaw = null`), so the computing path is
not recoverable from the record, and nothing in the record flags the
fallback.  The record's fields are exactly the raw inputs and their
derived metrics (src/main.js:802-811). -/
theorem sample_no_provenance_marker :
    pathOf (some "0x0") (some "0x5") none = CalcPath.fallback ∧
    pathOf none (some "0x5") none = CalcPath.neutral ∧
    buildSample (some "0x0") (some "0x5") none 7 =
      buildSample none (some "0x5") none 7 := by
  refine ⟨by decide, by decide, by decide⟩

/-- Claim C6, amended.  No dedicated provenance field exists in the stored
sample.  The only distinction between the two formula kinds is indirect:
a sample computed via the exact formula always stores a header whose
`minerDifficulty` is present and truthy, and a fallback-computed sample
never does.  Nothing downstream consults this: the chunk aggregation
averages the `deltaK` of fallback- and exact-computed samples together
with no distinction. -/
theorem sample_provenance_indirect :
    (∀ (mi be : Option String) (hd : Option Header) (n : ℕ),
      pathOf mi be hd = CalcPath.exact →
      strTruthy (hdrMinerDiff (buildSample mi be hd n).header) = true) ∧
    (∀ (mi be : Option String) (hd : Option Header) (n : ℕ),
      pathOf mi be hd = CalcPath.fallback →
      strTruthy (hdrMinerDiff (buildSample mi be hd n).header) = false) ∧
    (∀ s₁ s₂ : Sample,
      (aggregateSeries [s₁, s₂] 2).map ChunkPoint.avgDk =
        [(s₁.deltaK + s₂.deltaK) / 2]) := by
  refine ⟨fun mi be hd n h => ?_, fun mi be hd n h => ?_, fun s₁ s₂ => ?_⟩
  · rw [buildSample_header]
    unfold pathOf at h
    by_cases c1 : ((jsOrNull be).isSome && hd.isSome &&
        strTruthy (hdrMinerDiff hd)) = true
    · simp only [Bool.and_eq_true] at c1
      exact c1.2
    · rw [if_neg c1] at h
      split at h <;> exact CalcPath.noConfusion h
  · rw [buildSample_header]
    unfold pathOf at h
    by_cases c1 : ((jsOrNull be).isSome && hd.isSome &&
        strTruthy (hdrMinerDiff hd)) = true
    · rw [if_pos c1] at h
      exact CalcPath.noConfusion h
    · rw [if_neg c1] at h
      by_cases c2 : ((jsOrNull mi).isSome && (jsOrNull be).isSome) = true
      · simp only [Bool.and_eq_true] at c2
        cases hmd : strTruthy (hdrMinerDiff hd)
        · rfl
        · have hsome : hd.isSome = true := by
            cases hd
            · simp [hdrMinerDiff, strTruthy] at hmd
            · rfl
          have hc1' : ((jsOrNull be).isSome && hd.isSome &&
              strTruthy (hdrMinerDiff hd)) = true := by
            rw [Bool.and_eq_true, Bool.and_eq_true]
            exact ⟨⟨c2.2, hsome⟩, hmd⟩
          exact absurd hc1' c1
      · rw [if_neg c2] at h
        exact CalcPath.noConfusion h
  · have ht : ([s₁, s₂] : List Sample).take 2 = [s₁, s₂] := rfl
    have hdr : ([s₁, s₂] : List Sample).drop 2 = [] := rfl
    rw [aggregateSeries, slicesOf_cons 2 (by norm_num) _ (by simp), ht, hdr,
      slicesOf_nil]
    simp [avgDec_eq]

/-- Concrete application of the amended C6 at the fallback-computed
sample of block 7: its stored header carries no truthy
`minerDifficulty`. -/
theorem sample_provenance_indirect_witness :
    strTruthy (hdrMinerDiff
      (buildSample (some "0x0") (some "0x5") none 7).header) = false :=
  sample_provenance_indirect.2.1 (some "0x0") (some "0x5") none 7 (by decide)

/-! ## Claim C10: totality of `hexToBigInt` -/

/-- An independent lowercase hex printer (specification side only): the
digit character of a value `< 16`. -/
def digitCh (d : ℕ) : Char :=
  if d < 10 then Char.ofNat (48 + d) else Char.ofNat (87 + d)

/-- An independent hex printer: the big-endian hex digit characters of
`n` (empty for `n = 0`). -/
def natToHexChars (n : ℕ) : List Char :=
  ((Nat.digits 16 n).map digitCh).reverse

theorem hexDigitVal_digitCh (d : ℕ) (hd : d < 16) :
    hexDigitVal (digitCh d) = d := by
  interval_cases d <;> decide

theorem isHexDigitCh_digitCh (d : ℕ) (hd : d < 16) :
    isHexDigitCh (digitCh d) = true := by
  interval_cases d <;> decide

theorem hexVal_append_digit (cs : List Char) (c : Char) :
    hexVal (cs ++ [c]) = hexVal cs * 16 + hexDigitVal c := by
  unfold hexVal
  rw [List.foldl_append]
  rfl

theorem hexVal_natToHexChars (n : ℕ) : hexVal (natToHexChars n) = n := by
  induction n using Nat.strong_induction_on with
  | _ n ih =>
    rcases Nat.eq_zero_or_pos n with h0 | hp
    · subst h0
      simp [natToHexChars, hexVal]
    · have hd := Nat.digits_def' (by norm_num : 1 < 16) hp
      unfold natToHexChars
      rw [hd]
      simp only [List.map_cons, List.reverse_cons]
      rw [hexVal_append_digit]
      have hrec : hexVal ((Nat.digits 16 (n / 16)).map digitCh).reverse =
          n / 16 := by
        have := ih (n / 16) (Nat.div_lt_self hp (by norm_num))
        unfold natToHexChars at this
        exact this
      rw [hrec, hexDigitVal_digitCh _ (Nat.mod_lt n (by norm_num))]
      omega

theorem natToHexChars_all_hex (n : ℕ) :
    (natToHexChars n).all isHexDigitCh = true := by
  unfold natToHexChars
  rw [List.all_eq_true]
  intro c hc
  rw [List.mem_reverse, List.mem_map] at hc
  obtain ⟨d, hdm, rfl⟩ := hc
  exact isHexDigitCh_digitCh d (Nat.digits_lt_base (by norm_num) hdm)

theorem natToHexChars_ne_nil (n : ℕ) (hn : n ≠ 0) : natToHexChars n ≠ [] := by
  unfold natToHexChars
  simp [Nat.digits_ne_nil_iff_ne_zero, hn]

/-- Claim C10.  `hexToBigInt` is total and never raises: it returns `0` for
`null`/`undefined`; it decodes every well-formed `0x`-prefixed hex string
of any length to its value (stated against an independent printer); it
returns `0` for any string whose `0x`-normalization fails to parse
(malformed hex); it returns a BigInt on every modeled input;
consequently a malformed hex value silently decodes to `0`, and the
affected sample degrades to the neutral defaults of
`computeExactDeltaK` instead of an exception aborting the window
fetch. -/
theorem hexToBigInt_total_spec :
    hexToBigInt .vNull = 0 ∧
    hexToBigInt .vUndefined = 0 ∧
    (∀ n : ℕ, 0 < n →
      hexToBigInt (.vStr ⟨'0' :: 'x' :: natToHexChars n⟩) = n) ∧
    (∀ s : String, parseHex0x (cleanedChars s) = none →
      hexToBigInt (.vStr s) = 0) ∧
    (∀ v : JSVal, ∃ z : ℤ, hexToBigInt v = z) ∧
    (∀ s : String, parseHex0x (cleanedChars s) = none → ∀ m : JSVal,
      computeExactDeltaK (.vStr s) m =
        { ratio := 1, deltaK := 0, kQuaiIncrease := false }) := by
  have hmal : ∀ s : String, parseHex0x (cleanedChars s) = none →
      hexToBigInt (.vStr s) = 0 := by
    intro s h
    simp only [hexToBigInt]
    rcases eq_or_ne s.data [] with hd | hd
    · rw [if_pos hd]
    · rw [if_neg hd, h]
  refine ⟨rfl, rfl, fun n hn => ?_, hmal, fun v => ⟨hexToBigInt v, rfl⟩,
    fun s h m => ?_⟩
  · have hdata : (⟨'0' :: 'x' :: natToHexChars n⟩ : String).data =
        '0' :: 'x' :: natToHexChars n := rfl
    have hne : (⟨'0' :: 'x' :: natToHexChars n⟩ : String).data ≠ [] := by
      rw [hdata]
      exact List.cons_ne_nil _ _
    have hclean : cleanedChars ⟨'0' :: 'x' :: natToHexChars n⟩ =
        '0' :: 'x' :: natToHexChars n := by
      unfold cleanedChars
      rw [hdata,
        if_pos (show List.take 2 ('0' :: 'x' :: natToHexChars n) =
          ['0', 'x'] from rfl)]
    simp only [hexToBigInt]
    rw [if_neg hne, hclean]
    show (match parseHex0x ('0' :: 'x' :: natToHexChars n) with
      | some z => z
      | none => 0) = (n : ℤ)
    rw [show parseHex0x ('0' :: 'x' :: natToHexChars n) =
        (if ('0' : Char) = '0' ∧ ('x' : Char) = 'x' ∧
            natToHexChars n ≠ [] ∧ (natToHexChars n).all isHexDigitCh then
          some ((hexVal (natToHexChars n) : ℤ))
        else none) from rfl]
    rw [if_pos ⟨rfl, rfl, natToHexChars_ne_nil n hn.ne',
      natToHexChars_all_hex n⟩]
    rw [hexVal_natToHexChars]
  · have h0 : hexToBigInt (.vStr s) = 0 := hmal s h
    simp [computeExactDeltaK, h0]

/-- Concrete instance of C10: the malformed hex string `"0xZZ"` silently
decodes to `0`. -/
theorem hexToBigInt_total_spec_witness :
    hexToBigInt (.vStr "0xZZ") = 0 :=
  hexToBigInt_total_spec.2.2.2.1 "0xZZ" (by decide)

end MainJs
